import Mathlib

/-!
Shallow embedding of the virtual file-system engine of `src/filesystem.py`
(classes `FileNode`, `VirtualDisk`, `FileSystem`).

Modelling conventions:
* A `FileNode` object is the inductive `FNode`.  The Python attribute
  `children : Dict[str, FileNode]` (an insertion-ordered dict with unique
  keys) is an association list `List (String × FNode)`; dict lookup,
  key-test, deletion and insertion-at-end are `findChild`, `hasKey`,
  `removeKey` and list append.
* The Python attribute `parent : Optional[FileNode]` is an object
  reference.  Node identity in a tree is its access path from the root
  (the list of child keys), so `parent` is embedded as
  `Option (List String)`: the path of the parent node (`none` for the
  root, exactly as `FileNode.__init__` defaults `parent=None`).
* `datetime.now()` results are opaque: the wall clock is passed in as a
  `now : String` argument wherever the Python code reads the clock, and
  `isoformat`/`fromisoformat` round-trip is the identity on these strings.
* `FileSystem.current_directory` (a node reference) is the path `cwd`;
  in-place mutation of the node it points at becomes `modifyAt` on that
  path.
-/

namespace VFS

/-- The scalar metadata attributes set by `FileNode.__init__` (everything
except `name`, `is_directory`, `parent`, `children`). -/
structure NodeMeta where
  content : String
  size : Nat
  created_at : String
  modified_at : String
  permissions : String
  access_count : Nat
deriving DecidableEq, Repr

/-- A `FileNode`: name, `is_directory` flag, parent reference (embedded as
the parent's path from the root), metadata, and the `children` dict as an
association list in insertion order. -/
inductive FNode where
  | mk (name : String) (is_directory : Bool) (parent : Option (List String))
       (meta : NodeMeta) (children : List (String × FNode))

/-- `node.name` -/
def FNode.name : FNode → String
  | .mk n _ _ _ _ => n

/-- `node.is_directory` -/
def FNode.is_directory : FNode → Bool
  | .mk _ d _ _ _ => d

/-- `node.parent` (as the parent node's path from the root) -/
def FNode.parent : FNode → Option (List String)
  | .mk _ _ p _ _ => p

/-- scalar metadata of a node -/
def FNode.meta : FNode → NodeMeta
  | .mk _ _ _ m _ => m

/-- `node.children` -/
def FNode.children : FNode → List (String × FNode)
  | .mk _ _ _ _ cs => cs

/-- Replace the children dict of a node, keeping every other attribute. -/
def FNode.withChildren : FNode → List (String × FNode) → FNode
  | .mk n d p m _, cs => .mk n d p m cs

/-- Replace the scalar metadata of a node, keeping every other attribute. -/
def FNode.withMeta : FNode → NodeMeta → FNode
  | .mk n d p _ cs, m => .mk n d p m cs

/-- Dict lookup `children[name]` / `children.get(name)`. -/
def findChild : List (String × FNode) → String → Option FNode
  | [], _ => none
  | (k, c) :: rest, s => if k = s then some c else findChild rest s

/-- Dict key test `name in children`. -/
def hasKey (cs : List (String × FNode)) (s : String) : Bool :=
  (findChild cs s).isSome

/-- Dict deletion `del children[name]` (keys are unique in a dict, so
removing the first binding is removing the binding). -/
def removeKey : List (String × FNode) → String → List (String × FNode)
  | [], _ => []
  | (k, c) :: rest, s => if k = s then rest else (k, c) :: removeKey rest s

/-- Replace the value stored under key `s` (in-place mutation of one entry
of the dict). -/
def mapChild : List (String × FNode) → String → (FNode → FNode) → List (String × FNode)
  | [], _, _ => []
  | (k, c) :: rest, s, f => if k = s then (k, f c) :: rest else (k, c) :: mapChild rest s f

/-- Follow a path of child keys from a node (dereferencing a node
identity). -/
def getNode (t : FNode) : List String → Option FNode
  | [] => some t
  | s :: rest =>
    match findChild t.children s with
    | some c => getNode c rest
    | none => none

/-- Apply an in-place mutation to the node sitting at `p` inside the tree
`t` (the functional rendering of mutating a Python object through a
reference). -/
def modifyAt (t : FNode) : List String → (FNode → FNode) → FNode
  | [], f => f t
  | s :: rest, f => t.withChildren (mapChild t.children s (fun c => modifyAt c rest f))

/-- Representation invariant tying the embedding to the Python object
graph: at path `p`, a node's `parent` reference is the enclosing node
(`none` at the root), every dict key equals the stored name of the child
it maps to, keys are unique (it is a dict), and a file's children dict is
empty.  Every tree the public API can build satisfies this. -/
def wfAux (p : List String) : FNode → Bool
  | .mk _n d par _m cs =>
    decide (par = (if p = [] then none else some p.dropLast)) &&
    (d || cs.isEmpty) &&
    decide (cs.map Prod.fst).Nodup &&
    go cs
where go : List (String × FNode) → Bool
  | [] => true
  | (k, c) :: rest => (k == c.name) && wfAux (p ++ [k]) c && go rest

/-- A well-formed tree, rooted (invariant from the top path). -/
def wfTree (t : FNode) : Bool := wfAux [] t

/-- `filename.strip()` (remove leading and trailing whitespace). -/
def pyStrip (s : String) : String :=
  String.mk (((s.toList.dropWhile Char.isWhitespace).reverse.dropWhile Char.isWhitespace).reverse)

/-- `filename.upper()` (ASCII uppercasing, character by character; all
reserved names are ASCII). -/
def pyUpper (s : String) : String :=
  String.mk (s.toList.map Char.toUpper)

/-- `s.endswith(c)` for a one-character suffix. -/
def lastIs (s : String) (c : Char) : Bool :=
  match s.toList.getLast? with
  | some d => d == c
  | none => false

/-- The `invalid_chars` list of `FileSystem._validate_filename`. -/
def invalid_chars : List Char := ['/', '\\', ':', '*', '?', '"', '<', '>', '|', '\x00']

/-- The `reserved_names` list of `FileSystem._validate_filename`. -/
def reserved_names : List String :=
  [".", "..", "CON", "PRN", "AUX", "NUL",
   "COM1", "COM2", "COM3", "COM4", "COM5", "COM6", "COM7", "COM8", "COM9",
   "LPT1", "LPT2", "LPT3", "LPT4", "LPT5", "LPT6", "LPT7", "LPT8", "LPT9"]

/-- `FileSystem._validate_filename`.  Note the source rebinds
`filename = filename.strip()` before the reserved/length/suffix checks,
while the caller keeps using the unstripped name. -/
def validate_filename (filename : String) : Bool × String :=
  if filename = "" ∨ pyStrip filename = "" then
    (false, "El nombre no puede estar vacio")
  else
    let f := pyStrip filename
    match invalid_chars.find? (fun c => f.toList.contains c) with
    | some c => (false, "El nombre contiene el caracter no permitido: " ++ c.toString)
    | none =>
      if reserved_names.contains (pyUpper f) then
        (false, f ++ " es un nombre reservado del sistema")
      else if 255 < f.length then
        (false, "El nombre es demasiado largo (maximo 255 caracteres)")
      else if lastIs f '.' || lastIs f ' ' then
        (false, "El nombre no puede terminar con punto o espacio")
      else
        (true, "")

/-- The `FileSystem.stats` counters dict. -/
structure Stats where
  files_created : Nat
  files_deleted : Nat
  directories_created : Nat
  directories_deleted : Nat
  total_operations : Nat
deriving DecidableEq, Repr

/-- The fresh counters dict built in `FileSystem.__init__`. -/
def zeroStats : Stats :=
  { files_created := 0, files_deleted := 0, directories_created := 0,
    directories_deleted := 0, total_operations := 0 }

/-- In-memory engine state of a `FileSystem` instance: the tree root, the
`current_directory` reference (as a path) and the counters. -/
structure FS where
  root : FNode
  cwd : List String
  stats : Stats

/-- `FileSystem._save_changes`: flush to disk (the artifact is modelled
separately by `save_disk`) and count the operation. -/
def save_changes (fs : FS) : FS :=
  { fs with stats := { fs.stats with total_operations := fs.stats.total_operations + 1 } }

/-- `FileNode.update_access_time`: bump the access counter. -/
def bumpAccess (t : FNode) : FNode :=
  t.withMeta { t.meta with access_count := t.meta.access_count + 1 }

/-- `FileSystem.create_file`.  Returns the new state plus the Python
`(success, message)` pair. -/
def create_file (fs : FS) (filename content now : String) : FS × Bool × String :=
  let v := validate_filename filename
  if !v.1 then (fs, false, v.2)
  else
    match getNode fs.root fs.cwd with
    | none => (fs, false, "No se puede crear archivo: directorio actual invalido")
    | some current =>
      if !current.is_directory then
        (fs, false, "No se puede crear archivo: directorio actual invalido")
      else if hasKey current.children filename then
        (fs, false, "El archivo " ++ filename ++ " ya existe")
      else
        let new_file : FNode := .mk filename false (some fs.cwd)
          { content := content, size := content.utf8ByteSize, created_at := now,
            modified_at := now, permissions := "rw-", access_count := 0 } []
        let root' := modifyAt fs.root fs.cwd
          (fun cur => cur.withChildren (cur.children ++ [(filename, new_file)]))
        let stats' := { fs.stats with files_created := fs.stats.files_created + 1 }
        let fs' := { fs with root := root', stats := stats' }
        (save_changes fs', true, "Archivo " ++ filename ++ " creado exitosamente")

/-- `FileSystem.create_directory`. -/
def create_directory (fs : FS) (dirname now : String) : FS × Bool × String :=
  let v := validate_filename dirname
  if !v.1 then (fs, false, v.2)
  else
    match getNode fs.root fs.cwd with
    | none => (fs, false, "No se puede crear directorio: directorio actual invalido")
    | some current =>
      if !current.is_directory then
        (fs, false, "No se puede crear directorio: directorio actual invalido")
      else if hasKey current.children dirname then
        (fs, false, "El directorio " ++ dirname ++ " ya existe")
      else
        let new_dir : FNode := .mk dirname true (some fs.cwd)
          { content := "", size := 0, created_at := now,
            modified_at := now, permissions := "rwx", access_count := 0 } []
        let root' := modifyAt fs.root fs.cwd
          (fun cur => cur.withChildren (cur.children ++ [(dirname, new_dir)]))
        let stats' := { fs.stats with directories_created := fs.stats.directories_created + 1 }
        let fs' := { fs with root := root', stats := stats' }
        (save_changes fs', true, "Directorio " ++ dirname ++ " creado exitosamente")

/-- `FileSystem.read_file`.  Returns the new state plus the Python
`(success, message, content)` triple. -/
def read_file (fs : FS) (filename : String) : FS × Bool × String × Option String :=
  match getNode fs.root fs.cwd with
  | none => (fs, false, "Directorio actual invalido", none)
  | some current =>
    if !current.is_directory then (fs, false, "Directorio actual invalido", none)
    else
      match findChild current.children filename with
      | none => (fs, false, "El archivo " ++ filename ++ " no existe", none)
      | some file_node =>
        if file_node.is_directory then
          (fs, false, filename ++ " es un directorio, no un archivo", none)
        else
          let root' := modifyAt fs.root (fs.cwd ++ [filename]) bumpAccess
          (save_changes { fs with root := root' }, true,
           "Archivo " ++ filename ++ " leido exitosamente", some file_node.meta.content)

/-- The in-place rewrite a successful `update_file` applies to the target
file node: new content, recomputed byte size, fresh modification time,
access-count bump (`update_access_time`). -/
def updContent (content now : String) (f : FNode) : FNode :=
  bumpAccess (f.withMeta { f.meta with content := content, size := content.utf8ByteSize, modified_at := now })

/-- `FileSystem.update_file`. -/
def update_file (fs : FS) (filename content now : String) : FS × Bool × String :=
  match getNode fs.root fs.cwd with
  | none => (fs, false, "Directorio actual invalido")
  | some current =>
    if !current.is_directory then (fs, false, "Directorio actual invalido")
    else
      match findChild current.children filename with
      | none => (fs, false, "El archivo " ++ filename ++ " no existe")
      | some file_node =>
        if file_node.is_directory then
          (fs, false, filename ++ " es un directorio, no un archivo")
        else
          let root' := modifyAt fs.root (fs.cwd ++ [filename]) (updContent content now)
          (save_changes { fs with root := root' }, true,
           "Archivo " ++ filename ++ " actualizado exitosamente")

/-- `FileSystem.delete_file` (deletes a file or an empty directory). -/
def delete_file (fs : FS) (filename : String) : FS × Bool × String :=
  match getNode fs.root fs.cwd with
  | none => (fs, false, "Directorio actual invalido")
  | some current =>
    if !current.is_directory then (fs, false, "Directorio actual invalido")
    else
      match findChild current.children filename with
      | none => (fs, false, filename ++ " no existe")
      | some node_to_delete =>
        if node_to_delete.is_directory && !node_to_delete.children.isEmpty then
          (fs, false, "El directorio " ++ filename ++ " no esta vacio")
        else
          let stats' :=
            if node_to_delete.is_directory then
              { fs.stats with directories_deleted := fs.stats.directories_deleted + 1 }
            else
              { fs.stats with files_deleted := fs.stats.files_deleted + 1 }
          let root' := modifyAt fs.root fs.cwd
            (fun cur => cur.withChildren (removeKey cur.children filename))
          (save_changes { fs with root := root', stats := stats' }, true,
           filename ++ " eliminado exitosamente")

/-- `FileNode.get_size_recursive`. -/
def get_size_recursive : FNode → Nat
  | .mk _ false _ m _ => m.size
  | .mk _ true _ _ cs => go cs
where go : List (String × FNode) → Nat
  | [] => 0
  | (_, c) :: rest => get_size_recursive c + go rest

/-- `FileSystem.file_exists`. -/
def file_exists (fs : FS) (filename : String) : Bool :=
  match getNode fs.root fs.cwd with
  | none => false
  | some current => hasKey current.children filename

/-- The dict produced by `FileSystem._node_to_dict` for one node: keys
`name`, `type`, `size`, `created_at`, `modified_at`, `permissions`,
`access_count`, `content`, `children` (always all present). -/
inductive Fat where
  | mk (name : String) (ty : String) (size : Nat)
       (created_at modified_at permissions : String)
       (access_count : Nat) (content : String)
       (children : List (String × Fat))

/-- The `type` key of a FAT entry. -/
def Fat.ty : Fat → String
  | .mk _ t _ _ _ _ _ _ _ => t

/-- `FileSystem._node_to_dict`: serialize a node; the `children` dict is
filled only when the node is a directory. -/
def node_to_dict : FNode → Fat
  | .mk n d _par m cs =>
    .mk n (if d then "directory" else "file") m.size m.created_at m.modified_at
      m.permissions m.access_count m.content (if d then go cs else [])
where go : List (String × FNode) → List (String × Fat)
  | [] => []
  | (k, c) :: rest => (k, node_to_dict c) :: go rest

/-- `FileSystem._populate_node` together with the `FileNode` construction
done by its caller: build the node living at path `selfPath` whose shell
was created as `FileNode(name, is_directory, parent)`, filling metadata
from the FAT entry and recursively building children (each child's
`parent` reference is the node being populated, and its `is_directory`
flag comes from the stored `type`). -/
def populate (selfPath : List String) (name : String) (is_directory : Bool)
    (parent : Option (List String)) : Fat → FNode
  | .mk _n _ty size ca ma perm ac content children =>
    .mk name is_directory parent
      { content := content, size := size, created_at := ca, modified_at := ma,
        permissions := perm, access_count := ac }
      (if is_directory then go selfPath children else [])
where go (selfPath : List String) : List (String × Fat) → List (String × FNode)
  | [] => []
  | (k, ce) :: rest =>
    (k, populate (selfPath ++ [k]) k (ce.ty == "directory") (some selfPath) ce) ::
      go selfPath rest

/-- Dict lookup in the FAT table. -/
def lookupFat : List (String × Fat) → String → Option Fat
  | [], _ => none
  | (k, e) :: rest, s => if k = s then some e else lookupFat rest s

/-- `FileSystem._build_tree_from_fat`: create the root shell
`FileNode("/", is_directory=True)` and populate it from the `/` entry of
the FAT table; with no `/` entry the shell keeps its constructor
defaults (timestamps from the clock `now`). -/
def build_tree_from_fat (now : String) (fat_table : List (String × Fat)) : FNode :=
  match lookupFat fat_table "/" with
  | some root_data => populate [] "/" true none root_data
  | none =>
    .mk "/" true none
      { content := "", size := 0, created_at := now, modified_at := now,
        permissions := "rwx", access_count := 0 } []

/-- `FileSystem._update_fat_from_tree`: the FAT table is the single entry
`{"/": _node_to_dict(root)}`. -/
def update_fat_from_tree (fs : FS) : List (String × Fat) :=
  [("/", node_to_dict fs.root)]

/-- The `metadata` dict of `VirtualDisk` (exactly these five keys). -/
structure DiskMetadata where
  created_at : String
  last_modified : String
  total_blocks : Nat
  block_size : Nat
  used_blocks : Nat
deriving DecidableEq, Repr

/-- The fresh metadata dict built in `VirtualDisk.__init__`. -/
def newDiskMetadata (now : String) : DiskMetadata :=
  { created_at := now, last_modified := now, total_blocks := 1000,
    block_size := 512, used_blocks := 0 }

/-- The JSON object written by `VirtualDisk.save_disk`: the whole snapshot
artifact holds exactly the keys `fat_table` and `metadata`. -/
structure DiskData where
  fat_table : List (String × Fat)
  metadata : DiskMetadata

/-- `FileSystem._update_fat_from_tree` followed by `VirtualDisk.save_disk`
(the flush performed inside `_save_changes`): serialize the current tree
and stamp `last_modified`. -/
def save_disk (fs : FS) (meta : DiskMetadata) (now : String) : DiskData :=
  { fat_table := update_fat_from_tree fs, metadata := { meta with last_modified := now } }

/-- `FileSystem.__init__` on a disk file whose content is the snapshot
`d`: rebuild the tree from the FAT table, point `current_directory` at
the root and create fresh zeroed counters. -/
def initFS (d : DiskData) (now : String) : FS :=
  { root := build_tree_from_fat now d.fat_table, cwd := [], stats := zeroStats }

/-- `VirtualDisk._create_empty_fat`. -/
def create_empty_fat (now : String) : List (String × Fat) :=
  [("/", .mk "/" "directory" 0 now now "rwx" 0 "" [])]

/-- `FileSystem.__init__` when no disk file exists yet: `load_disk`
creates the empty FAT and the engine is built from it. -/
def freshFS (now : String) : FS :=
  { root := build_tree_from_fat now (create_empty_fat now), cwd := [], stats := zeroStats }

/-- `path.split("/")` character by character (Python `str.split` on a
one-character separator). -/
def splitChars : List Char → List Char → List String
  | [], acc => [String.mk acc.reverse]
  | c :: rest, acc =>
    if c = '/' then String.mk acc.reverse :: splitChars rest []
    else splitChars rest (c :: acc)

/-- `[p for p in path.split("/") if p]`. -/
def splitPath (path : String) : List String :=
  (splitChars path.toList []).filter (fun s => s ≠ "")

/-- `path.startswith("/")`. -/
def isAbsolute (path : String) : Bool :=
  match path.toList with
  | [] => false
  | c :: _ => c == '/'

/-- The navigation loop of `FileSystem._get_node_by_path`: walk the
segments from the node at path `cur`, reading the `parent` reference of
the current node for `..` (staying put when the parent is absent), and
descending into a matching child of a directory otherwise. -/
def resolveSegs (root : FNode) (cur : List String) : List String → Option (List String)
  | [] => some cur
  | seg :: rest =>
    match getNode root cur with
    | none => none
    | some node =>
      if seg = ".." then
        match node.parent with
        | some p => resolveSegs root p rest
        | none => resolveSegs root cur rest
      else if seg = "." then resolveSegs root cur rest
      else if node.is_directory && hasKey node.children seg then
        resolveSegs root (cur ++ [seg]) rest
      else none

/-- `FileSystem._get_node_by_path`, returning the path of the resolved
node (node identity). -/
def get_node_by_path (fs : FS) (path : String) : Option (List String) :=
  if path = "" ∨ path = "/" then some []
  else if isAbsolute path then resolveSegs fs.root [] (splitPath path)
  else resolveSegs fs.root fs.cwd (splitPath path)

/-- `FileSystem.change_directory`. -/
def change_directory (fs : FS) (path : String) : FS × Bool × String :=
  match get_node_by_path fs path with
  | none => (fs, false, "El directorio " ++ path ++ " no existe")
  | some q =>
    match getNode fs.root q with
    | none => (fs, false, "El directorio " ++ path ++ " no existe")
    | some target =>
      if !target.is_directory then (fs, false, path ++ " no es un directorio")
      else
        let root' := modifyAt fs.root q bumpAccess
        (save_changes { fs with root := root', cwd := q }, true, "Directorio cambiado")

/-- `FileNode.get_full_path` (join of parent names down to the node; on
trees with consistent parent references this is determined by the node's
path). -/
def get_full_path (q : List String) : String :=
  match q with
  | [] => "/"
  | _ => "/" ++ String.intercalate "/" q

/-- The info dict built by `FileSystem.get_file_info`. -/
structure FileInfo where
  name : String
  ty : String
  full_path : String
  size : Nat
  size_recursive : Nat
  created : String
  modified : String
  permissions : String
  access_count : Nat
deriving DecidableEq, Repr

/-- `FileSystem.get_file_info` (a pure query: it performs no save). -/
def get_file_info (fs : FS) (filename : String) : Bool × String × Option FileInfo :=
  match getNode fs.root fs.cwd with
  | none => (false, filename ++ " no existe", none)
  | some current =>
    match findChild current.children filename with
    | none => (false, filename ++ " no existe", none)
    | some node =>
      (true, "Informacion de " ++ filename ++ " obtenida",
       some { name := node.name,
              ty := if node.is_directory then "directory" else "file",
              full_path := get_full_path (fs.cwd ++ [filename]),
              size := node.meta.size,
              size_recursive := get_size_recursive node,
              created := node.meta.created_at,
              modified := node.meta.modified_at,
              permissions := node.meta.permissions,
              access_count := node.meta.access_count })

/-- One public mutating call (the clock reading passed explicitly). -/
inductive Op where
  | createFile (name content now : String)
  | createDirectory (name now : String)
  | readFile (name : String)
  | updateFile (name content now : String)
  | deleteFile (name : String)
  | changeDirectory (path : String)

/-- Execute one public call, keeping the engine state. -/
def applyOp (fs : FS) : Op → FS
  | .createFile n c now => (create_file fs n c now).1
  | .createDirectory n now => (create_directory fs n now).1
  | .readFile n => (read_file fs n).1
  | .updateFile n c now => (update_file fs n c now).1
  | .deleteFile n => (delete_file fs n).1
  | .changeDirectory p => (change_directory fs p).1

/-- Run a sequence of public calls. -/
def run (fs : FS) (ops : List Op) : FS := ops.foldl applyOp fs

/-- Concrete demo file node (`/d/x.txt`, 5 bytes of content). -/
def demoFile : FNode :=
  .mk "x.txt" false (some ["d"])
    { content := "hello", size := 5, created_at := "T1", modified_at := "T1",
      permissions := "rw-", access_count := 0 } []

/-- Concrete demo directory `/d` holding one file. -/
def demoDirFull : FNode :=
  .mk "d" true (some [])
    { content := "", size := 0, created_at := "T1", modified_at := "T1",
      permissions := "rwx", access_count := 0 } [("x.txt", demoFile)]

/-- Concrete empty demo directory `/e`. -/
def demoDirEmpty : FNode :=
  .mk "e" true (some [])
    { content := "", size := 0, created_at := "T1", modified_at := "T1",
      permissions := "rwx", access_count := 0 } []

/-- Concrete demo root with one full and one empty directory. -/
def demoRoot : FNode :=
  .mk "/" true none
    { content := "", size := 0, created_at := "T0", modified_at := "T0",
      permissions := "rwx", access_count := 0 } [("d", demoDirFull), ("e", demoDirEmpty)]

/-- Concrete demo engine state sitting at the root. -/
def demoFS : FS := { root := demoRoot, cwd := [], stats := zeroStats }

/-- A child entry is smaller than the node containing it. -/
theorem sizeOf_child_lt {n : String} {d : Bool} {q : Option (List String)}
    {m : NodeMeta} {cs : List (String × FNode)} {p : String × FNode}
    (hp : p ∈ cs) : sizeOf p.2 < sizeOf (FNode.mk n d q m cs) := by
  have h1 : sizeOf p < sizeOf cs := List.sizeOf_lt_of_mem hp
  have h2 : sizeOf p.2 < sizeOf p := by
    obtain ⟨a, b⟩ := p
    simp
  simp only [FNode.mk.sizeOf_spec]
  omega

/-- Structural induction over `FNode` (the nested-inductive eliminator is
not usable by the `induction` tactic, so we derive the usual rose-tree
induction principle by strong induction on `sizeOf`). -/
theorem FNode.inductionOn (motive : FNode → Prop)
    (h : ∀ n d pa m cs, (∀ p ∈ cs, motive p.2) → motive (.mk n d pa m cs)) :
    ∀ t, motive t := by
  have key : ∀ k, ∀ t : FNode, sizeOf t ≤ k → motive t := by
    intro k
    induction k with
    | zero =>
      intro t ht
      cases t with
      | mk n d pa m cs => simp [FNode.mk.sizeOf_spec] at ht
    | succ k ih =>
      intro t ht
      cases t with
      | mk n d pa m cs =>
        apply h
        intro p hp
        apply ih
        have := sizeOf_child_lt (n := n) (d := d) (q := pa) (m := m) hp
        omega
  intro t
  exact key (sizeOf t) t le_rfl

/-- A successful dict lookup returns an entry of the list. -/
theorem findChild_mem {cs : List (String × FNode)} {s : String} {c : FNode}
    (h : findChild cs s = some c) : (s, c) ∈ cs := by
  induction cs with
  | nil => simp [findChild] at h
  | cons p rest ih =>
    obtain ⟨k, v⟩ := p
    by_cases hk : k = s
    · subst hk
      simp [findChild] at h
      simp [h]
    · simp [findChild, hk] at h
      exact List.mem_cons_of_mem _ (ih h)

/-- Dict lookup fails exactly when the key is absent. -/
theorem findChild_eq_none_iff {cs : List (String × FNode)} {s : String} :
    findChild cs s = none ↔ s ∉ cs.map Prod.fst := by
  induction cs with
  | nil => simp [findChild]
  | cons p rest ih =>
    obtain ⟨k, v⟩ := p
    by_cases hk : k = s
    · subst hk
      simp [findChild]
    · simp [findChild, hk, ih, Ne.symm hk]

/-- The key test in terms of the key set. -/
theorem hasKey_iff_mem {l : List (String × FNode)} {s : String} :
    hasKey l s = true ↔ s ∈ l.map Prod.fst := by
  rw [hasKey, Option.isSome_iff_ne_none]
  rw [Ne, findChild_eq_none_iff]
  simp

/-- Looking up the appended dict. -/
theorem findChild_append {cs ds : List (String × FNode)} {s : String} :
    findChild (cs ++ ds) s =
      match findChild cs s with
      | some c => some c
      | none => findChild ds s := by
  induction cs with
  | nil => simp [findChild]
  | cons p rest ih =>
    obtain ⟨k, v⟩ := p
    by_cases hk : k = s
    · simp [findChild, hk]
    · simp [findChild, hk, ih]

/-- Updating one entry does not touch the other keys. -/
theorem findChild_mapChild_ne {cs : List (String × FNode)} {s k : String}
    {f : FNode → FNode} (h : k ≠ s) :
    findChild (mapChild cs s f) k = findChild cs k := by
  induction cs with
  | nil => simp [mapChild]
  | cons p rest ih =>
    obtain ⟨k', v⟩ := p
    by_cases hk : k' = s
    · subst hk
      simp [mapChild, findChild, Ne.symm h]
    · by_cases hk2 : k' = k
      · subst hk2
        simp [mapChild, hk, findChild]
      · simp [mapChild, hk, findChild, hk2, ih]

/-- Updating one entry rewrites exactly that key's value. -/
theorem findChild_mapChild_eq {cs : List (String × FNode)} {s : String}
    {f : FNode → FNode} :
    findChild (mapChild cs s f) s = (findChild cs s).map f := by
  induction cs with
  | nil => simp [mapChild, findChild]
  | cons p rest ih =>
    obtain ⟨k, v⟩ := p
    by_cases hk : k = s
    · subst hk
      simp [mapChild, findChild]
    · simp [mapChild, hk, findChild, ih]

/-- The entry update keeps the key list. -/
theorem mapChild_map_fst {cs : List (String × FNode)} {s : String} {f : FNode → FNode} :
    (mapChild cs s f).map Prod.fst = cs.map Prod.fst := by
  induction cs with
  | nil => simp [mapChild]
  | cons p rest ih =>
    obtain ⟨k, v⟩ := p
    by_cases hk : k = s
    · simp [mapChild, hk]
    · simp [mapChild, hk, ih]

/-- Dict deletion yields a sublist. -/
theorem removeKey_sublist (cs : List (String × FNode)) (s : String) :
    (removeKey cs s).Sublist cs := by
  induction cs with
  | nil => simp [removeKey]
  | cons p rest ih =>
    obtain ⟨k, v⟩ := p
    by_cases hk : k = s
    · simp [removeKey, hk]
    · simp [removeKey, hk]
      exact ih

/-- After deleting a key from a dict (unique keys), it is gone. -/
theorem findChild_removeKey_self {cs : List (String × FNode)} {s : String}
    (hnd : (cs.map Prod.fst).Nodup) :
    findChild (removeKey cs s) s = none := by
  induction cs with
  | nil => simp [removeKey, findChild]
  | cons p rest ih =>
    obtain ⟨k, v⟩ := p
    simp only [List.map_cons, List.nodup_cons] at hnd
    by_cases hk : k = s
    · subst hk
      simp only [removeKey, if_pos rfl]
      rw [findChild_eq_none_iff]
      exact hnd.1
    · simp [removeKey, hk, findChild, ih hnd.2]

/-- Splitting a walk along an appended path. -/
theorem getNode_append (t : FNode) (p q : List String) :
    getNode t (p ++ q) = (getNode t p).bind (fun n => getNode n q) := by
  induction p generalizing t with
  | nil => simp [getNode]
  | cons s rest ih =>
    simp only [List.cons_append, getNode]
    match h : findChild t.children s with
    | some c => simp [ih]
    | none => simp

/-- Walking to a path one key longer. -/
theorem getNode_concat (t : FNode) (p : List String) (s : String) :
    getNode t (p ++ [s]) = (getNode t p).bind (fun n => findChild n.children s) := by
  have h : ∀ n : FNode, getNode n [s] = findChild n.children s := by
    intro n
    simp only [getNode]
    cases hx : findChild n.children s <;> simp [getNode]
  rw [getNode_append]
  cases getNode t p <;> simp [h]

/-- Mutating the node at `p` rewrites the subtree there. -/
theorem getNode_modifyAt_self {t : FNode} {p : List String} {cur : FNode}
    (f : FNode → FNode) (h : getNode t p = some cur) :
    getNode (modifyAt t p f) p = some (f cur) := by
  induction p generalizing t with
  | nil =>
    simp [getNode] at h
    subst h
    simp [modifyAt, getNode]
  | cons s rest ih =>
    simp only [getNode] at h
    match hf : findChild t.children s with
    | none => rw [hf] at h; simp at h
    | some c =>
      rw [hf] at h
      simp only [modifyAt, getNode, FNode.withChildren]
      cases t with
      | mk n d pa m cs =>
        simp only [FNode.children] at hf ⊢
        rw [findChild_mapChild_eq, hf]
        exact ih h

/-- Mutating the node at `p` does not change the tree header when the
mutation preserves it at the target. -/
theorem modifyAt_header {f : FNode → FNode}
    (hf : ∀ c, (f c).name = c.name ∧ (f c).is_directory = c.is_directory ∧
      (f c).parent = c.parent) :
    ∀ (t : FNode) (p : List String),
      (modifyAt t p f).name = t.name ∧ (modifyAt t p f).is_directory = t.is_directory ∧
      (modifyAt t p f).parent = t.parent := by
  intro t p
  cases p with
  | nil => exact hf t
  | cons s rest =>
    cases t with
    | mk n d pa m cs =>
      simp [modifyAt, FNode.withChildren, FNode.name, FNode.is_directory, FNode.parent]

/-- Unfolded form of the invariant at a constructor. -/
theorem wfAux_mk {p : List String} {n : String} {d : Bool} {par : Option (List String)}
    {m : NodeMeta} {cs : List (String × FNode)} :
    wfAux p (.mk n d par m cs) = true ↔
      (par = (if p = [] then none else some p.dropLast) ∧
       (d = true ∨ cs = []) ∧
       (cs.map Prod.fst).Nodup ∧
       wfAux.go p cs = true) := by
  show (_ && _ && _ && _) = true ↔ _
  simp only [Bool.and_eq_true, decide_eq_true_eq, Bool.or_eq_true, List.isEmpty_iff,
    and_assoc]

/-- Invariant of every entry of a well-formed children dict. -/
theorem wfAux_go_mem {p : List String} {cs : List (String × FNode)}
    (h : wfAux.go p cs = true) {k : String} {c : FNode} (hm : (k, c) ∈ cs) :
    k = c.name ∧ wfAux (p ++ [k]) c = true := by
  induction cs with
  | nil => simp at hm
  | cons q rest ih =>
    obtain ⟨k', c'⟩ := q
    simp only [wfAux.go, Bool.and_eq_true, beq_iff_eq] at h
    rcases List.mem_cons.mp hm with hh | hh
    · injection hh with h1 h2
      subst h1; subst h2
      exact ⟨h.1.1, h.1.2⟩
    · exact ih h.2 hh

/-- Rebuilding a children-dict invariant from its entries. -/
theorem wfAux_go_of_forall {p : List String} {cs : List (String × FNode)}
    (h : ∀ k c, (k, c) ∈ cs → k = c.name ∧ wfAux (p ++ [k]) c = true) :
    wfAux.go p cs = true := by
  induction cs with
  | nil => simp [wfAux.go]
  | cons q rest ih =>
    obtain ⟨k', c'⟩ := q
    have h1 := h k' c' (List.mem_cons_self _ _)
    simp only [wfAux.go, Bool.and_eq_true, beq_iff_eq]
    exact ⟨⟨h1.1, h1.2⟩, ih (fun k c hm => h k c (List.mem_cons_of_mem _ hm))⟩

/-- The invariant propagates to every reachable node. -/
theorem wf_getNode {t : FNode} {q p : List String} {n : FNode}
    (hw : wfAux q t = true) (hg : getNode t p = some n) :
    wfAux (q ++ p) n = true := by
  induction p generalizing t q with
  | nil =>
    simp [getNode] at hg
    subst hg
    simpa using hw
  | cons s rest ih =>
    simp only [getNode] at hg
    match hf : findChild t.children s with
    | none => rw [hf] at hg; simp at hg
    | some c =>
      rw [hf] at hg
      cases t with
      | mk nm d pa m cs =>
        have hcs : (s, c) ∈ cs := findChild_mem (by simpa [FNode.children] using hf)
        have hgo := (wfAux_mk.mp hw).2.2.2
        have hc := (wfAux_go_mem hgo hcs).2
        have := ih hc hg
        simpa [List.append_assoc] using this

/-- The invariant ignores scalar metadata. -/
theorem wfAux_withMeta {p : List String} {t : FNode} {m : NodeMeta} :
    wfAux p (t.withMeta m) = wfAux p t := by
  cases t
  rfl

/-- A mutation that keeps the target's name keeps the tree's root name. -/
theorem modifyAt_name_of {f : FNode → FNode} {t : FNode} {p : List String} {cur : FNode}
    (hget : getNode t p = some cur) (hname : (f cur).name = cur.name) :
    (modifyAt t p f).name = t.name := by
  cases p with
  | nil =>
    simp [getNode] at hget
    subst hget
    exact hname
  | cons s rest =>
    cases t with
    | mk n d pa m cs => simp [modifyAt, FNode.withChildren, FNode.name]

/-- Metadata-only in-place mutations preserve the invariant everywhere. -/
theorem wfAux_modifyAt_metaOnly {f : FNode → FNode}
    (hf : ∀ c, ∃ m, f c = c.withMeta m) :
    ∀ (p q : List String) (t : FNode), wfAux q (modifyAt t p f) = wfAux q t := by
  intro p
  induction p with
  | nil =>
    intro q t
    obtain ⟨m, hm⟩ := hf t
    simp [modifyAt, hm, wfAux_withMeta]
  | cons s rest ih =>
    intro q t
    cases t with
    | mk n d pa m cs =>
      have hname : ∀ c : FNode, (modifyAt c rest f).name = c.name := by
        intro c
        cases rest with
        | nil =>
          obtain ⟨m', hm'⟩ := hf c
          cases c
          simp [modifyAt, hm', FNode.withMeta, FNode.name]
        | cons a b =>
          cases c
          simp [modifyAt, FNode.withChildren, FNode.name]
      show wfAux q (.mk n d pa m (mapChild cs s (fun c => modifyAt c rest f))) = _
      have hgo : ∀ q', wfAux.go q' (mapChild cs s (fun c => modifyAt c rest f)) =
          wfAux.go q' cs := by
        intro q'
        induction cs with
        | nil => simp [mapChild]
        | cons pth tail ihl =>
          obtain ⟨k, v⟩ := pth
          by_cases hk : k = s
          · simp only [mapChild, if_pos hk, wfAux.go]
            rw [hname v, ih (q' ++ [k]) v]
          · simp only [mapChild, if_neg hk, wfAux.go]
            rw [ihl]
      have hempty : (mapChild cs s (fun c => modifyAt c rest f)).isEmpty = cs.isEmpty := by
        cases cs with
        | nil => simp [mapChild]
        | cons pth tail =>
          obtain ⟨k, v⟩ := pth
          by_cases hk : k = s <;> simp [mapChild, hk]
      show (_ && _ && _ && _) = (_ && _ && _ && _)
      rw [hgo, hempty, mapChild_map_fst]

/-- The children-dict invariant splits over append. -/
theorem wfAux_go_append {p : List String} (cs ds : List (String × FNode)) :
    wfAux.go p (cs ++ ds) = (wfAux.go p cs && wfAux.go p ds) := by
  induction cs with
  | nil => simp [wfAux.go]
  | cons q rest ih =>
    obtain ⟨k, v⟩ := q
    simp [wfAux.go, ih, Bool.and_assoc]

/-- Appending a fresh, well-shaped child to a directory node keeps the
invariant at that node. -/
theorem wfAux_append_child {p : List String} {cur : FNode} {k : String}
    {d' : Bool} {m' : NodeMeta}
    (hw : wfAux p cur = true) (hdir : cur.is_directory = true)
    (hnew : hasKey cur.children k = false) :
    wfAux p (cur.withChildren (cur.children ++ [(k, FNode.mk k d' (some p) m' [])])) = true := by
  cases cur with
  | mk n d pa m cs =>
    simp only [FNode.is_directory] at hdir
    simp only [FNode.children] at hnew ⊢
    subst hdir
    obtain ⟨hpar, _hd, hnd, hgo⟩ := wfAux_mk.mp hw
    simp only [FNode.withChildren]
    apply wfAux_mk.mpr
    refine ⟨hpar, Or.inl rfl, ?_, ?_⟩
    · have hk : k ∉ cs.map Prod.fst := by
        intro hmem
        rw [← hasKey_iff_mem (l := cs)] at hmem
        simp [hmem] at hnew
      simp only [List.map_append, List.map_cons, List.map_nil]
      rw [List.nodup_append]
      refine ⟨hnd, List.nodup_singleton _, ?_⟩
      intro a ha hb
      simp only [List.mem_singleton] at hb
      subst hb
      exact hk ha
    · rw [wfAux_go_append, hgo]
      simp only [Bool.true_and, wfAux.go, FNode.name, beq_self_eq_true, Bool.true_and,
        Bool.and_true]
      apply wfAux_mk.mpr
      refine ⟨?_, Or.inr rfl, by simp, by simp [wfAux.go]⟩
      simp [List.dropLast_concat]

/-- Deleting a child keeps the invariant at the node. -/
theorem wfAux_removeKey {p : List String} {cur : FNode} {k : String}
    (hw : wfAux p cur = true) :
    wfAux p (cur.withChildren (removeKey cur.children k)) = true := by
  cases cur with
  | mk n d pa m cs =>
    obtain ⟨hpar, hd, hnd, hgo⟩ := wfAux_mk.mp hw
    have hsub := removeKey_sublist cs k
    apply wfAux_mk.mpr
    refine ⟨hpar, ?_, ?_, ?_⟩
    · rcases hd with hd | hd
      · exact Or.inl hd
      · subst hd
        cases hs : removeKey ([] : List (String × FNode)) k <;> simp [removeKey] at hs ⊢
    · exact List.Nodup.sublist (hsub.map Prod.fst) hnd
    · apply wfAux_go_of_forall
      intro k' c hm
      exact wfAux_go_mem hgo (hsub.subset hm)

/-- Preservation of the invariant under an in-place mutation at a path,
when the mutation preserves the invariant (and the name) of the node it
rewrites. -/
theorem wfAux_modifyAt {f : FNode → FNode} :
    ∀ (p q : List String) (t : FNode) (cur : FNode),
      getNode t p = some cur →
      (f cur).name = cur.name →
      (wfAux (q ++ p) cur = true → wfAux (q ++ p) (f cur) = true) →
      wfAux q t = true → wfAux q (modifyAt t p f) = true := by
  intro p
  induction p with
  | nil =>
    intro q t cur hget hname htrans hw
    simp [getNode] at hget
    subst hget
    simpa [modifyAt] using htrans (by simpa using hw)
  | cons s rest ih =>
    intro q t cur hget hname htrans hw
    cases t with
    | mk n d pa m cs =>
      simp only [getNode, FNode.children] at hget
      match hfc : findChild cs s with
      | none => rw [hfc] at hget; simp at hget
      | some c =>
        rw [hfc] at hget
        simp only at hget
        obtain ⟨hpar, hd, hnd, hgo⟩ := wfAux_mk.mp hw
        show wfAux q (.mk n d pa m (mapChild cs s (fun x => modifyAt x rest f))) = true
        have hgname : (modifyAt c rest f).name = c.name :=
          modifyAt_name_of hget hname
        have hinner : ∀ ds, findChild ds s = some c → wfAux.go q ds = true →
            wfAux.go q (mapChild ds s (fun x => modifyAt x rest f)) = true := by
          intro ds
          induction ds with
          | nil => intro h; simp [findChild] at h
          | cons pr tail ihl =>
            obtain ⟨k, v⟩ := pr
            intro hfd hgd
            simp only [wfAux.go, Bool.and_eq_true, beq_iff_eq] at hgd
            by_cases hk : k = s
            · subst hk
              simp only [findChild, if_pos rfl] at hfd
              injection hfd with hfd
              subst hfd
              simp only [mapChild, if_pos rfl, wfAux.go, Bool.and_eq_true, beq_iff_eq]
              refine ⟨⟨by rw [hgname]; exact hgd.1.1, ?_⟩, hgd.2⟩
              apply ih (q ++ [k]) v cur hget hname
              · intro hx
                have := htrans (by simpa [List.append_assoc] using hx)
                simpa [List.append_assoc] using this
              · exact hgd.1.2
            · simp only [findChild, if_neg hk] at hfd
              simp only [mapChild, if_neg hk, wfAux.go, Bool.and_eq_true, beq_iff_eq]
              exact ⟨hgd.1, ihl hfd hgd.2⟩
        have hempty : (mapChild cs s (fun x => modifyAt x rest f)).isEmpty = cs.isEmpty := by
          cases cs with
          | nil => simp [mapChild]
          | cons pr tail =>
            obtain ⟨k, v⟩ := pr
            by_cases hk : k = s <;> simp [mapChild, hk]
        apply wfAux_mk.mpr
        refine ⟨hpar, ?_, ?_, hinner cs hfc hgo⟩
        · rcases hd with hd | hd
          · exact Or.inl hd
          · subst hd
            simp [mapChild]
        · rw [mapChild_map_fst]
          exact hnd

/-- `create_file` preserves the representation invariant. -/
theorem wfTree_create_file {fs : FS} (hw : wfTree fs.root = true)
    (filename content now : String) :
    wfTree (create_file fs filename content now).1.root = true := by
  simp only [create_file]
  split
  · exact hw
  · split
    · exact hw
    · rename_i current hget
      split
      · exact hw
      · split
        · exact hw
        · rename_i hdir hhas
          simp only [save_changes]
          apply wfAux_modifyAt fs.cwd [] fs.root current hget
          · cases current
            simp [FNode.withChildren, FNode.name]
          · intro hx
            simp only [List.nil_append] at hx ⊢
            exact wfAux_append_child hx (by simpa using hdir) (by simpa using hhas)
          · exact hw

/-- `create_directory` preserves the representation invariant. -/
theorem wfTree_create_directory {fs : FS} (hw : wfTree fs.root = true)
    (dirname now : String) :
    wfTree (create_directory fs dirname now).1.root = true := by
  simp only [create_directory]
  split
  · exact hw
  · split
    · exact hw
    · rename_i current hget
      split
      · exact hw
      · split
        · exact hw
        · rename_i hdir hhas
          simp only [save_changes]
          apply wfAux_modifyAt fs.cwd [] fs.root current hget
          · cases current
            simp [FNode.withChildren, FNode.name]
          · intro hx
            simp only [List.nil_append] at hx ⊢
            exact wfAux_append_child hx (by simpa using hdir) (by simpa using hhas)
          · exact hw

/-- `bumpAccess` only rewrites metadata. -/
theorem bumpAccess_metaOnly (c : FNode) : ∃ m, bumpAccess c = c.withMeta m :=
  ⟨_, rfl⟩

/-- `read_file` preserves the representation invariant. -/
theorem wfTree_read_file {fs : FS} (hw : wfTree fs.root = true) (filename : String) :
    wfTree (read_file fs filename).1.root = true := by
  simp only [read_file]
  split
  · exact hw
  · split
    · exact hw
    · split
      · exact hw
      · split
        · exact hw
        · simp only [save_changes]
          show wfAux [] (modifyAt fs.root (fs.cwd ++ [filename]) bumpAccess) = true
          rw [wfAux_modifyAt_metaOnly bumpAccess_metaOnly]
          exact hw

/-- `update_file` preserves the representation invariant. -/
theorem wfTree_update_file {fs : FS} (hw : wfTree fs.root = true)
    (filename content now : String) :
    wfTree (update_file fs filename content now).1.root = true := by
  simp only [update_file]
  split
  · exact hw
  · split
    · exact hw
    · split
      · exact hw
      · split
        · exact hw
        · simp only [save_changes]
          show wfAux [] (modifyAt fs.root (fs.cwd ++ [filename]) (updContent content now)) = true
          rw [wfAux_modifyAt_metaOnly]
          · exact hw
          · intro c
            cases c with
            | mk n d pa m cs => exact ⟨_, rfl⟩

/-- `delete_file` preserves the representation invariant. -/
theorem wfTree_delete_file {fs : FS} (hw : wfTree fs.root = true) (filename : String) :
    wfTree (delete_file fs filename).1.root = true := by
  simp only [delete_file]
  split
  · exact hw
  · rename_i current hget
    split
    · exact hw
    · split
      · exact hw
      · split
        · exact hw
        · simp only [save_changes]
          apply wfAux_modifyAt fs.cwd [] fs.root current hget
          · cases current
            simp [FNode.withChildren, FNode.name]
          · intro hx
            exact wfAux_removeKey hx
          · exact hw

/-- `change_directory` preserves the representation invariant. -/
theorem wfTree_change_directory {fs : FS} (hw : wfTree fs.root = true) (path : String) :
    wfTree (change_directory fs path).1.root = true := by
  simp only [change_directory]
  split
  · exact hw
  · split
    · exact hw
    · split
      · exact hw
      · simp only [save_changes]
        show wfAux [] (modifyAt fs.root _ bumpAccess) = true
        rw [wfAux_modifyAt_metaOnly bumpAccess_metaOnly]
        exact hw

/-- Every public call preserves the representation invariant. -/
theorem wfTree_applyOp {fs : FS} (hw : wfTree fs.root = true) (op : Op) :
    wfTree (applyOp fs op).root = true := by
  cases op with
  | createFile n c now => exact wfTree_create_file hw n c now
  | createDirectory n now => exact wfTree_create_directory hw n now
  | readFile n => exact wfTree_read_file hw n
  | updateFile n c now => exact wfTree_update_file hw n c now
  | deleteFile n => exact wfTree_delete_file hw n
  | changeDirectory p => exact wfTree_change_directory hw p

/-- The fresh engine's tree satisfies the invariant. -/
theorem wfTree_freshFS (now : String) : wfTree (freshFS now).root = true := by
  rfl

/-- Every tree reachable through the public API satisfies the invariant. -/
theorem wfTree_run {fs : FS} (hw : wfTree fs.root = true) (ops : List Op) :
    wfTree (run fs ops).root = true := by
  induction ops generalizing fs with
  | nil => exact hw
  | cons op rest ih => exact ih (wfTree_applyOp hw op)

/-- Core round-trip: populating a node from its own serialization
reproduces it (on well-formed trees, which is all the API can build). -/
theorem populate_node_to_dict (t : FNode) :
    ∀ p : List String, wfAux p t = true →
      populate p t.name t.is_directory (if p = [] then none else some p.dropLast)
        (node_to_dict t) = t := by
  induction t using FNode.inductionOn with
  | _ n d pa m cs ih =>
    intro p hw
    obtain ⟨hpar, hd, _hnd, hgo⟩ := wfAux_mk.mp hw
    have hchild : ∀ k c, (k, c) ∈ cs →
        populate (p ++ [k]) k ((node_to_dict c).ty == "directory") (some p)
          (node_to_dict c) = c := by
      intro k c hm
      obtain ⟨hk, hwc⟩ := wfAux_go_mem hgo hm
      subst hk
      have hty : ((node_to_dict c).ty == "directory") = c.is_directory := by
        cases c with
        | mk n' d' pa' m' cs' =>
          cases d' <;> simp [node_to_dict, Fat.ty, FNode.is_directory]
      rw [hty]
      simpa [List.dropLast_concat] using ih (c.name, c) hm (p ++ [c.name]) hwc
    have hgoeq : ∀ ds : List (String × FNode),
        (∀ k c, (k, c) ∈ ds →
          populate (p ++ [k]) k ((node_to_dict c).ty == "directory") (some p)
            (node_to_dict c) = c) →
        populate.go p (node_to_dict.go ds) = ds := by
      intro ds
      induction ds with
      | nil => intro _; rfl
      | cons q rest ihl =>
        obtain ⟨k, c⟩ := q
        intro hds
        simp only [node_to_dict.go, populate.go]
        rw [hds k c (List.mem_cons_self _ _),
          ihl (fun k c hm => hds k c (List.mem_cons_of_mem _ hm))]
    cases d with
    | true =>
      subst hpar
      exact congrArg
        (fun x => FNode.mk n true (if p = [] then none else some p.dropLast) m x)
        (hgoeq cs hchild)
    | false =>
      have hcs : cs = [] := by
        rcases hd with hd | hd
        · exact absurd hd (by simp)
        · exact hd
      subst hcs
      subst hpar
      rfl

/-- Round-trip through `_build_tree_from_fat` of a serialized well-formed
root. -/
theorem build_roundtrip {t : FNode} (hw : wfTree t = true) (hname : t.name = "/")
    (hdir : t.is_directory = true) (now : String) :
    build_tree_from_fat now [("/", node_to_dict t)] = t := by
  have hlk : lookupFat [("/", node_to_dict t)] "/" = some (node_to_dict t) := by
    simp [lookupFat]
  simp only [build_tree_from_fat, hlk]
  have hrt := populate_node_to_dict t [] hw
  rw [hname, hdir] at hrt
  simpa using hrt

/-- Every public call keeps the root's name, kind and (absent) parent
reference. -/
theorem applyOp_root_header (fs : FS) (op : Op) :
    (applyOp fs op).root.name = fs.root.name ∧
    (applyOp fs op).root.is_directory = fs.root.is_directory ∧
    (applyOp fs op).root.parent = fs.root.parent := by
  have hwc : ∀ c : FNode, ∀ cs',
      ((c.withChildren cs').name = c.name ∧
       (c.withChildren cs').is_directory = c.is_directory ∧
       (c.withChildren cs').parent = c.parent) := by
    intro c cs'
    cases c
    simp [FNode.withChildren, FNode.name, FNode.is_directory, FNode.parent]
  have hwm : ∀ c : FNode, ∀ m',
      ((c.withMeta m').name = c.name ∧
       (c.withMeta m').is_directory = c.is_directory ∧
       (c.withMeta m').parent = c.parent) := by
    intro c m'
    cases c
    simp [FNode.withMeta, FNode.name, FNode.is_directory, FNode.parent]
  cases op with
  | createFile n c now =>
    simp only [applyOp, create_file]
    split
    · exact ⟨rfl, rfl, rfl⟩
    · split
      · exact ⟨rfl, rfl, rfl⟩
      · split
        · exact ⟨rfl, rfl, rfl⟩
        · split
          · exact ⟨rfl, rfl, rfl⟩
          · exact modifyAt_header (fun x => hwc x _) fs.root fs.cwd
  | createDirectory n now =>
    simp only [applyOp, create_directory]
    split
    · exact ⟨rfl, rfl, rfl⟩
    · split
      · exact ⟨rfl, rfl, rfl⟩
      · split
        · exact ⟨rfl, rfl, rfl⟩
        · split
          · exact ⟨rfl, rfl, rfl⟩
          · exact modifyAt_header (fun x => hwc x _) fs.root fs.cwd
  | readFile n =>
    simp only [applyOp, read_file]
    split
    · exact ⟨rfl, rfl, rfl⟩
    · split
      · exact ⟨rfl, rfl, rfl⟩
      · split
        · exact ⟨rfl, rfl, rfl⟩
        · split
          · exact ⟨rfl, rfl, rfl⟩
          · exact modifyAt_header (fun x => hwm x _) fs.root (fs.cwd ++ [n])
  | updateFile n c now =>
    simp only [applyOp, update_file]
    split
    · exact ⟨rfl, rfl, rfl⟩
    · split
      · exact ⟨rfl, rfl, rfl⟩
      · split
        · exact ⟨rfl, rfl, rfl⟩
        · split
          · exact ⟨rfl, rfl, rfl⟩
          · refine modifyAt_header (fun x => ?_) fs.root (fs.cwd ++ [n])
            cases x
            simp [updContent, bumpAccess, FNode.withMeta, FNode.name, FNode.is_directory,
              FNode.parent, FNode.meta]
  | deleteFile n =>
    simp only [applyOp, delete_file]
    split
    · exact ⟨rfl, rfl, rfl⟩
    · split
      · exact ⟨rfl, rfl, rfl⟩
      · split
        · exact ⟨rfl, rfl, rfl⟩
        · split
          · exact ⟨rfl, rfl, rfl⟩
          · exact modifyAt_header (fun x => hwc x _) fs.root fs.cwd
  | changeDirectory p =>
    simp only [applyOp, change_directory]
    split
    · exact ⟨rfl, rfl, rfl⟩
    · split
      · exact ⟨rfl, rfl, rfl⟩
      · split
        · exact ⟨rfl, rfl, rfl⟩
        · exact modifyAt_header (fun x => hwm x _) fs.root _

/-- The root of every reachable engine state is the directory `/` with no
parent reference. -/
theorem run_root_header (fs : FS) (ops : List Op)
    (h : fs.root.name = "/" ∧ fs.root.is_directory = true ∧ fs.root.parent = none) :
    (run fs ops).root.name = "/" ∧ (run fs ops).root.is_directory = true ∧
    (run fs ops).root.parent = none := by
  induction ops generalizing fs with
  | nil => exact h
  | cons op rest ih =>
    apply ih
    have hop := applyOp_root_header fs op
    exact ⟨hop.1.trans h.1, hop.2.1.trans h.2.1, hop.2.2.trans h.2.2⟩

/-- Composing in-place mutations along an appended path. -/
theorem modifyAt_append (t : FNode) (p q : List String) (f : FNode → FNode) :
    modifyAt t (p ++ q) f = modifyAt t p (fun c => modifyAt c q f) := by
  induction p generalizing t with
  | nil => simp [modifyAt]
  | cons s rest ih =>
    simp only [List.cons_append, modifyAt, List.append_eq]
    have hfun : (fun c => modifyAt c (rest ++ q) f) =
        (fun c => modifyAt c rest (fun x => modifyAt x q f)) := by
      funext c
      exact ih c
    rw [hfun]

/-- Keys of a reachable node's children dict are unique. -/
theorem wf_children_nodup {t : FNode} {p : List String} {cur : FNode}
    (hw : wfTree t = true) (hget : getNode t p = some cur) :
    (cur.children.map Prod.fst).Nodup := by
  have h := wf_getNode (q := []) hw hget
  cases cur with
  | mk n d pa m cs => exact (wfAux_mk.mp (by simpa using h)).2.2.1

/-- Splitting a slash-free character list yields a single segment. -/
theorem splitChars_no_slash (l : List Char) (h : ∀ c ∈ l, c ≠ '/') :
    ∀ acc, splitChars l acc = [String.mk (acc.reverse ++ l)] := by
  induction l with
  | nil => intro acc; simp [splitChars]
  | cons c rest ih =>
    intro acc
    have hc : c ≠ '/' := h c (List.mem_cons_self _ _)
    simp only [splitChars, if_neg hc]
    rw [ih (fun x hx => h x (List.mem_cons_of_mem _ hx)) (c :: acc)]
    simp

/-- Splitting at the first slash after a slash-free prefix. -/
theorem splitChars_slash_split (l : List Char) (h : ∀ c ∈ l, c ≠ '/') (rest : List Char) :
    ∀ acc, splitChars (l ++ '/' :: rest) acc =
      String.mk (acc.reverse ++ l) :: splitChars rest [] := by
  induction l with
  | nil => intro acc; simp [splitChars]
  | cons c tail ih =>
    intro acc
    have hc : c ≠ '/' := h c (List.mem_cons_self _ _)
    simp only [List.cons_append, splitChars, if_neg hc, List.append_eq]
    rw [ih (fun x hx => h x (List.mem_cons_of_mem _ hx)) (c :: acc)]
    simp

/-- C1: for every tree reachable through the public API, serializing it
(`_update_fat_from_tree` + `VirtualDisk.save_disk`) and rebuilding from the
loaded FAT table (`_build_tree_from_fat`) reconstructs exactly the same
tree — same shape, names, kinds, content, sizes, permissions, access
counts and timestamps on every node — and, since the reachable tree
satisfies the parent-consistency invariant `wfTree`, every rebuilt node's
parent reference is its structural parent, the root's being absent. -/
theorem C1_save_load_roundtrip (now0 now1 now2 : String) (dm : DiskMetadata)
    (ops : List Op) :
    build_tree_from_fat now2
        (save_disk (run (freshFS now0) ops) dm now1).fat_table
      = (run (freshFS now0) ops).root ∧
    wfTree (run (freshFS now0) ops).root = true := by
  have hw := wfTree_run (wfTree_freshFS now0) ops
  have hh := run_root_header (freshFS now0) ops ⟨rfl, rfl, rfl⟩
  exact ⟨build_roundtrip hw hh.1 hh.2.1 now2, hw⟩

/-- C2 counterexample: build a state whose cursor is `/docs` and whose
`files_created` counter is 1, save it, and construct a new engine from the
snapshot: although the stored path `/docs` still resolves in the rebuilt
tree, the new engine's cursor is the root and its counters are zero — the
snapshot artifact carries no current-directory path and no counters, so
nothing is restored. -/
theorem C2_counterexample :
    (run (freshFS "T0")
        [Op.createDirectory "docs" "T1", Op.changeDirectory "docs",
         Op.createFile "f.txt" "hi" "T2"]).cwd = ["docs"] ∧
    (run (freshFS "T0")
        [Op.createDirectory "docs" "T1", Op.changeDirectory "docs",
         Op.createFile "f.txt" "hi" "T2"]).stats.files_created = 1 ∧
    get_node_by_path
      (initFS (save_disk (run (freshFS "T0")
        [Op.createDirectory "docs" "T1", Op.changeDirectory "docs",
         Op.createFile "f.txt" "hi" "T2"]) (newDiskMetadata "T0") "T3") "T4")
      "/docs" = some ["docs"] ∧
    (initFS (save_disk (run (freshFS "T0")
        [Op.createDirectory "docs" "T1", Op.changeDirectory "docs",
         Op.createFile "f.txt" "hi" "T2"]) (newDiskMetadata "T0") "T3") "T4").cwd = [] ∧
    (initFS (save_disk (run (freshFS "T0")
        [Op.createDirectory "docs" "T1", Op.changeDirectory "docs",
         Op.createFile "f.txt" "hi" "T2"]) (newDiskMetadata "T0") "T3") "T4").stats
      = zeroStats :=
  ⟨rfl, rfl, rfl, rfl, rfl⟩

/-- C2 amended: the snapshot written by `save_disk` holds exactly the FAT
table (the serialized node graph) and the five-field disk metadata —
no current-directory path and no operation counters — and constructing an
engine from any snapshot always puts the cursor at the root and creates
fresh zeroed counters. -/
theorem C2_snapshot_content (fs : FS) (dm : DiskMetadata) (now now2 : String)
    (d : DiskData) :
    (save_disk fs dm now).fat_table = [("/", node_to_dict fs.root)] ∧
    (save_disk fs dm now).metadata = { dm with last_modified := now } ∧
    (initFS d now2).cwd = [] ∧
    (initFS d now2).stats = zeroStats :=
  ⟨rfl, rfl, rfl, rfl⟩

/-- C3: the validator's comment and error message say names ending in a
dot or a space are rejected, but `_validate_filename` strips the name
before the suffix check, so a name with a trailing space (whose stripped
form is harmless) passes validation, and `create_file` then inserts the
unstripped name verbatim: the current directory gains a child whose stored
name ends in a space.  Trailing dots are still rejected (stripping removes
only whitespace). -/
theorem C3_trailing_space_accepted :
    validate_filename "a " = (true, "") ∧
    validate_filename "a." =
      (false, "El nombre no puede terminar con punto o espacio") ∧
    (create_file (freshFS "T0") "a " "x" "T1").2.1 = true ∧
    ((create_file (freshFS "T0") "a " "x" "T1").1.root.children.map Prod.fst)
      = ["a "] ∧
    lastIs "a " ' ' = true :=
  ⟨rfl, rfl, rfl, rfl, rfl⟩

/-- C4: for a directory child `D` of the current directory, `delete_file`
fails exactly when `D` currently has a child; a failed call returns the
state unchanged (tree, cursor and every counter), and a successful call
detaches `D` from its parent's children dict. -/
theorem C4_delete_directory (fs : FS) (cur D : FNode) (name : String)
    (hw : wfTree fs.root = true)
    (hget : getNode fs.root fs.cwd = some cur)
    (hdir : cur.is_directory = true)
    (hfind : findChild cur.children name = some D)
    (hDdir : D.is_directory = true) :
    ((delete_file fs name).2.1 = false ↔ D.children ≠ []) ∧
    (D.children ≠ [] → (delete_file fs name).1 = fs) ∧
    (D.children = [] →
      ∃ cur', getNode (delete_file fs name).1.root fs.cwd = some cur' ∧
        findChild cur'.children name = none) := by
  by_cases hc : D.children = []
  · have h1 : (delete_file fs name).2.1 = true := by
      simp [delete_file, hget, hdir, hfind, hc]
    have hroot : (delete_file fs name).1.root =
        modifyAt fs.root fs.cwd (fun c => c.withChildren (removeKey c.children name)) := by
      simp [delete_file, hget, hdir, hfind, hc, save_changes]
    refine ⟨?_, fun h => absurd hc h, fun _ => ?_⟩
    · rw [h1]
      simp [hc]
    · refine ⟨cur.withChildren (removeKey cur.children name), ?_, ?_⟩
      · rw [hroot]
        exact getNode_modifyAt_self _ hget
      · have hnd := wf_children_nodup hw hget
        cases cur with
        | mk n d pa m cs =>
          simpa [FNode.withChildren, FNode.children]
            using findChild_removeKey_self (s := name) hnd
  · have hempty : D.children.isEmpty = false := by
      cases hcc : D.children with
      | nil => exact absurd hcc hc
      | cons a l => rfl
    have h1 : delete_file fs name =
        (fs, false, "El directorio " ++ name ++ " no esta vacio") := by
      simp [delete_file, hget, hdir, hfind, hempty, hDdir]
    rw [h1]
    exact ⟨⟨fun _ => hc, fun _ => rfl⟩, fun _ => rfl, fun h => absurd h hc⟩

/-- C4 witness: deleting the non-empty directory `/d` of the demo state
fails and leaves the engine state unchanged. -/
theorem C4_delete_directory_witness :
    (delete_file demoFS "d").2.1 = false ∧ (delete_file demoFS "d").1 = demoFS := by
  have h := C4_delete_directory demoFS demoRoot demoDirFull "d" rfl rfl rfl rfl rfl
  have hne : demoDirFull.children ≠ [] := by
    simp [demoDirFull, FNode.children]
  exact ⟨h.1.mpr hne, h.2.1 hne⟩

/-- C5 counterexample: in the demo state the directory `/d` contains one
5-byte file, yet the `size` field of the `get_file_info` descriptor is the
stored 0; the recursive aggregate shows up only in the separate
`size_recursive` field, so the two fields disagree. -/
theorem C5_counterexample :
    ((get_file_info demoFS "d").2.2.map FileInfo.size = some 0) ∧
    ((get_file_info demoFS "d").2.2.map FileInfo.size_recursive = some 5) ∧
    get_size_recursive demoDirFull = 5 ∧
    ¬ ((get_file_info demoFS "d").2.2.map FileInfo.size =
       (get_file_info demoFS "d").2.2.map FileInfo.size_recursive) := by
  exact ⟨rfl, rfl, rfl, by decide⟩

/-- C5 amended: `get_file_info` reports the stored `size` attribute in its
`size` field (for a directory that stored field is not the aggregate) and
reports the on-demand recursive aggregate `get_size_recursive` in the
separate `size_recursive` field. -/
theorem C5_size_fields (fs : FS) (cur node : FNode) (name : String)
    (hget : getNode fs.root fs.cwd = some cur)
    (hfind : findChild cur.children name = some node) :
    (get_file_info fs name).2.2.map FileInfo.size = some node.meta.size ∧
    (get_file_info fs name).2.2.map FileInfo.size_recursive
      = some (get_size_recursive node) := by
  simp [get_file_info, hget, hfind]

/-- C5 witness: the amended statement evaluated on the demo state. -/
theorem C5_size_fields_witness :
    (get_file_info demoFS "d").2.2.map FileInfo.size = some demoDirFull.meta.size ∧
    (get_file_info demoFS "d").2.2.map FileInfo.size_recursive
      = some (get_size_recursive demoDirFull) :=
  C5_size_fields demoFS demoRoot demoDirFull "d" rfl rfl

/-- C10: `file_exists` is exactly the key test on the current directory's
children dict, irrespective of the child's kind; in particular it returns
`true` when the name denotes a directory. -/
theorem C10_file_exists_any_kind (fs : FS) (cur : FNode) (name : String)
    (hget : getNode fs.root fs.cwd = some cur) :
    (file_exists fs name = true ↔ name ∈ cur.children.map Prod.fst) ∧
    (∀ d, findChild cur.children name = some d → d.is_directory = true →
      file_exists fs name = true) := by
  have hfe : file_exists fs name = hasKey cur.children name := by
    simp [file_exists, hget]
  constructor
  · rw [hfe]
    exact hasKey_iff_mem
  · intro d hfind _
    rw [hfe]
    simp [hasKey, hfind]

/-- C10 witness: in the demo state the name `d` denotes a directory and
`file_exists` still answers `true`. -/
theorem C10_file_exists_witness : file_exists demoFS "d" = true := by
  have h := C10_file_exists_any_kind demoFS demoRoot "d" rfl
  exact h.2 demoDirFull rfl rfl

/-- C6: when `create_file(name, content)` succeeds and nothing else runs,
`read_file(name)` from the same current directory succeeds and returns
exactly `content`. -/
theorem C6_create_then_read (fs : FS) (name content now : String)
    (h : (create_file fs name content now).2.1 = true) :
    (read_file (create_file fs name content now).1 name).2.1 = true ∧
    (read_file (create_file fs name content now).1 name).2.2.2 = some content := by
  revert h
  simp only [create_file]
  split
  · intro h
    simp at h
  · split
    · intro h
      simp at h
    · rename_i current hget
      split
      · intro h
        simp at h
      · split
        · intro h
          simp at h
        · rename_i hdir hhas
          intro _
          have hdirT : current.is_directory = true := by
            cases hcd : current.is_directory
            · exact absurd (by simp [hcd]) hdir
            · rfl
          have hnone : findChild current.children name = none := by
            cases hfc : findChild current.children name
            · rfl
            · exact absurd (by simp [hasKey, hfc]) hhas
          simp only [read_file, save_changes]
          rw [getNode_modifyAt_self _ hget]
          cases current with
          | mk cn cd cpa cm ccs =>
            simp only [FNode.is_directory] at hdirT
            subst hdirT
            simp only [FNode.children] at hnone
            simp only [FNode.withChildren, FNode.is_directory, FNode.children,
              Bool.not_true, findChild_append, hnone]
            simp [findChild, FNode.is_directory, FNode.meta]

/-- Shape of a successful `update_file` call. -/
theorem update_file_success (fs : FS) {cur F : FNode} (name content now : String)
    (hget : getNode fs.root fs.cwd = some cur)
    (hdir : cur.is_directory = true)
    (hfind : findChild cur.children name = some F)
    (hFfile : F.is_directory = false) :
    update_file fs name content now =
      (save_changes { fs with root := modifyAt fs.root (fs.cwd ++ [name]) (updContent content now) },
       true, "Archivo " ++ name ++ " actualizado exitosamente") := by
  simp [update_file, hget, hdir, hfind, hFfile]

/-- `updContent` only rewrites scalar metadata. -/
theorem updContent_is_directory (content now : String) (f : FNode) :
    (updContent content now f).is_directory = f.is_directory := by
  cases f
  rfl

/-- The content stored by `updContent`. -/
theorem updContent_content (content now : String) (f : FNode) :
    (updContent content now f).meta.content = content := by
  cases f
  rfl

/-- The size stored by `updContent`. -/
theorem updContent_size (content now : String) (f : FNode) :
    (updContent content now f).meta.size = content.utf8ByteSize := by
  cases f
  rfl

/-- C7: repeating `update_file` with the same content is idempotent on the
target file's `content` and `size`: after the second call they equal their
values after the first call. -/
theorem C7_update_idempotent (fs : FS) (cur F : FNode) (name content now1 now2 : String)
    (hget : getNode fs.root fs.cwd = some cur)
    (hdir : cur.is_directory = true)
    (hfind : findChild cur.children name = some F)
    (hFfile : F.is_directory = false) :
    ∃ F1 F2,
      getNode (update_file fs name content now1).1.root (fs.cwd ++ [name]) = some F1 ∧
      getNode (update_file (update_file fs name content now1).1 name content now2).1.root
        (fs.cwd ++ [name]) = some F2 ∧
      F2.meta.content = F1.meta.content ∧ F2.meta.size = F1.meta.size := by
  have hgetF : getNode fs.root (fs.cwd ++ [name]) = some F := by
    rw [getNode_concat, hget]
    simpa using hfind
  have h1 := update_file_success fs name content now1 hget hdir hfind hFfile
  have hroot1 : (update_file fs name content now1).1.root =
      modifyAt fs.root (fs.cwd ++ [name]) (updContent content now1) := by
    rw [h1]
    rfl
  have hcwd1 : (update_file fs name content now1).1.cwd = fs.cwd := by
    rw [h1]
    rfl
  have hF1 : getNode (update_file fs name content now1).1.root (fs.cwd ++ [name])
      = some (updContent content now1 F) := by
    rw [hroot1]
    exact getNode_modifyAt_self _ hgetF
  have hcur1 : getNode (update_file fs name content now1).1.root fs.cwd
      = some (cur.withChildren (mapChild cur.children name
          (fun x => modifyAt x [] (updContent content now1)))) := by
    rw [hroot1, modifyAt_append]
    have h := getNode_modifyAt_self
      (fun c => modifyAt c [name] (updContent content now1)) hget
    simpa [modifyAt] using h
  have hget1 : getNode (update_file fs name content now1).1.root
      (update_file fs name content now1).1.cwd
      = some (cur.withChildren (mapChild cur.children name
          (fun x => modifyAt x [] (updContent content now1)))) := by
    rw [hcwd1]
    exact hcur1
  have hdir1 : (cur.withChildren (mapChild cur.children name
      (fun x => modifyAt x [] (updContent content now1)))).is_directory = true := by
    cases cur with
    | mk cn cd cpa cm ccs =>
      simpa [FNode.withChildren, FNode.is_directory] using hdir
  have hfind1 : findChild (cur.withChildren (mapChild cur.children name
      (fun x => modifyAt x [] (updContent content now1)))).children name
      = some (modifyAt F [] (updContent content now1)) := by
    cases cur with
    | mk cn cd cpa cm ccs =>
      simp only [FNode.withChildren, FNode.children] at hfind ⊢
      rw [findChild_mapChild_eq, hfind]
      rfl
  have hF1file : (modifyAt F [] (updContent content now1)).is_directory = false := by
    show (updContent content now1 F).is_directory = false
    rw [updContent_is_directory]
    exact hFfile
  have h2 := update_file_success (update_file fs name content now1).1 name content now2
    hget1 hdir1 hfind1 hF1file
  have hroot2 : (update_file (update_file fs name content now1).1 name content now2).1.root
      = modifyAt (update_file fs name content now1).1.root (fs.cwd ++ [name])
        (updContent content now2) := by
    rw [h2]
    show modifyAt _ ((update_file fs name content now1).1.cwd ++ [name]) _ = _
    rw [hcwd1]
  refine ⟨updContent content now1 F, updContent content now2 (updContent content now1 F),
    hF1, ?_, ?_, ?_⟩
  · rw [hroot2]
    exact getNode_modifyAt_self _ hF1
  · rw [updContent_content, updContent_content]
  · rw [updContent_size, updContent_size]

/-- C6 witness: create `nota.txt` with content `hola` in a fresh engine
and read it back. -/
theorem C6_create_then_read_witness :
    (read_file (create_file (freshFS "T0") "nota.txt" "hola" "T1").1 "nota.txt").2.1
      = true ∧
    (read_file (create_file (freshFS "T0") "nota.txt" "hola" "T1").1 "nota.txt").2.2.2
      = some "hola" :=
  C6_create_then_read (freshFS "T0") "nota.txt" "hola" "T1" rfl

/-- C7 witness: double update of `/d/x.txt` in the demo tree. -/
theorem C7_update_idempotent_witness :
    ∃ F1 F2,
      getNode (update_file { root := demoRoot, cwd := ["d"], stats := zeroStats }
        "x.txt" "new" "T2").1.root (["d"] ++ ["x.txt"]) = some F1 ∧
      getNode (update_file (update_file { root := demoRoot, cwd := ["d"], stats := zeroStats }
        "x.txt" "new" "T2").1 "x.txt" "new" "T3").1.root (["d"] ++ ["x.txt"]) = some F2 ∧
      F2.meta.content = F1.meta.content ∧ F2.meta.size = F1.meta.size :=
  C7_update_idempotent { root := demoRoot, cwd := ["d"], stats := zeroStats }
    demoDirFull demoFile "x.txt" "new" "T2" "T3" rfl rfl rfl rfl

/-- C9: after any sequence of public operations on a fresh engine the
unique root is still the directory `/` with no parent reference — no
operation removes it or gives it a parent — and every successful delete
removes a child of the current directory: a node at a nonempty path,
never the root. -/
theorem C9_root_invariant (now : String) (ops : List Op) (name : String) :
    ((run (freshFS now) ops).root.name = "/" ∧
     (run (freshFS now) ops).root.is_directory = true ∧
     (run (freshFS now) ops).root.parent = none) ∧
    ((delete_file (run (freshFS now) ops) name).2.1 = true →
      ∃ cur, getNode (run (freshFS now) ops).root (run (freshFS now) ops).cwd
          = some cur ∧
        hasKey cur.children name = true ∧
        (run (freshFS now) ops).cwd ++ [name] ≠ []) := by
  constructor
  · exact run_root_header (freshFS now) ops ⟨rfl, rfl, rfl⟩
  · simp only [delete_file]
    split
    · intro h
      simp at h
    · rename_i cur hget
      split
      · intro h
        simp at h
      · split
        · intro h
          simp at h
        · rename_i node hfind
          split
          · intro h
            simp at h
          · intro _
            refine ⟨cur, hget, ?_, by simp⟩
            simp [hasKey, hfind]

/-- C9 witness: one create and one delete on a fresh engine. -/
theorem C9_root_invariant_witness :
    (((run (freshFS "T0") [Op.createFile "a.txt" "x" "T1"]).root.name = "/" ∧
      (run (freshFS "T0") [Op.createFile "a.txt" "x" "T1"]).root.is_directory = true ∧
      (run (freshFS "T0") [Op.createFile "a.txt" "x" "T1"]).root.parent = none) ∧
     (∃ cur, getNode (run (freshFS "T0") [Op.createFile "a.txt" "x" "T1"]).root
          (run (freshFS "T0") [Op.createFile "a.txt" "x" "T1"]).cwd = some cur ∧
        hasKey cur.children "a.txt" = true ∧
        (run (freshFS "T0") [Op.createFile "a.txt" "x" "T1"]).cwd ++ ["a.txt"] ≠ [])) := by
  have h := C9_root_invariant "T0" [Op.createFile "a.txt" "x" "T1"] "a.txt"
  exact ⟨h.1, h.2 rfl⟩

/-- Parent reference of a well-formed node at path `p`. -/
theorem wfAux_parent {p : List String} {c : FNode} (h : wfAux p c = true) :
    c.parent = if p = [] then none else some p.dropLast := by
  cases c with
  | mk n d pa m cs =>
    show pa = _
    exact (wfAux_mk.mp h).1

/-- C8: from a directory `D` at path `p` containing a child named `a`,
resolving the path string `a/../a` yields the same node as resolving `a`
directly (both the child at `p ++ [a]`); and resolving `..` while the
current directory is the root stays at the root rather than failing. -/
theorem C8_dotdot_resolution (t : FNode) (p : List String) (D : FNode) (a : String)
    (st st2 : Stats)
    (hw : wfTree t = true)
    (hget : getNode t p = some D)
    (hdir : D.is_directory = true)
    (hhas : hasKey D.children a = true)
    (ha0 : a ≠ "") (had : a ≠ ".") (hadd : a ≠ "..")
    (hs : ∀ c ∈ a.toList, c ≠ '/') :
    get_node_by_path { root := t, cwd := p, stats := st } (a ++ "/../" ++ a)
      = some (p ++ [a]) ∧
    get_node_by_path { root := t, cwd := p, stats := st } a = some (p ++ [a]) ∧
    get_node_by_path { root := t, cwd := [], stats := st2 } ".." = some [] := by
  have hdne : a.data ≠ [] := by
    intro h0
    apply ha0
    cases a with
    | mk l =>
      simp at h0
      simp [h0]
  have hdata : (a ++ "/../" ++ a).toList
      = a.toList ++ '/' :: '.' :: '.' :: '/' :: a.toList := by
    show (a ++ "/../" ++ a).data = a.data ++ '/' :: '.' :: '.' :: '/' :: a.data
    rw [String.data_append, String.data_append]
    simp
  have hmid : splitChars ('.' :: '.' :: '/' :: a.toList) []
      = ".." :: splitChars a.toList [] := rfl
  have hsplit1 : splitPath (a ++ "/../" ++ a) = [a, "..", a] := by
    unfold splitPath
    rw [hdata, splitChars_slash_split a.toList hs _ [], hmid,
      splitChars_no_slash a.toList hs []]
    simp only [List.reverse_nil, List.nil_append]
    show List.filter _ [a, "..", a] = [a, "..", a]
    simp [List.filter, ha0]
  have hsplit2 : splitPath a = [a] := by
    unfold splitPath
    show (splitChars a.toList []).filter _ = [a]
    rw [splitChars_no_slash a.toList hs []]
    simp only [List.reverse_nil, List.nil_append]
    show List.filter _ [a] = [a]
    simp [List.filter, ha0]
  have hlen : ∀ s : String, a ++ "/../" ++ a = s →
      (a ++ "/../" ++ a).toList.length = s.toList.length := fun s h => by rw [h]
  have hne1 : ¬(a ++ "/../" ++ a = "" ∨ a ++ "/../" ++ a = "/") := by
    rintro (h | h)
    · have h2 := hlen _ h
      rw [hdata] at h2
      simp at h2
    · have h2 := hlen _ h
      rw [hdata] at h2
      simp at h2
      omega
  have hne2 : ¬(a = "" ∨ a = "/") := by
    rintro (h | h)
    · exact ha0 h
    · apply hs '/'
      · rw [h]
        decide
      · rfl
  have habs1 : isAbsolute (a ++ "/../" ++ a) = false := by
    unfold isAbsolute
    rw [hdata]
    cases hl : a.toList with
    | nil => exact absurd hl hdne
    | cons c l =>
      simp only [List.cons_append]
      have hc : c ≠ '/' := by
        apply hs
        rw [hl]
        exact List.mem_cons_self _ _
      simpa using hc
  have habs2 : isAbsolute a = false := by
    unfold isAbsolute
    cases hl : a.toList with
    | nil => exact absurd hl hdne
    | cons c l =>
      have hc : c ≠ '/' := by
        apply hs
        rw [hl]
        exact List.mem_cons_self _ _
      simpa using hc
  obtain ⟨c, hfc⟩ : ∃ c, findChild D.children a = some c := by
    cases hx : findChild D.children a with
    | none => rw [hasKey, hx] at hhas; simp at hhas
    | some c => exact ⟨c, rfl⟩
  have hgetc : getNode t (p ++ [a]) = some c := by
    rw [getNode_concat, hget]
    simpa using hfc
  have hwc : wfAux (p ++ [a]) c = true := by
    have := wf_getNode (q := []) hw hgetc
    simpa using this
  have hparc : c.parent = some p := by
    rw [wfAux_parent hwc]
    simp [List.dropLast_concat]
  have hstep : ∀ rest, resolveSegs t p (a :: rest) = resolveSegs t (p ++ [a]) rest := by
    intro rest
    simp only [resolveSegs, hget, if_neg hadd, if_neg had, hdir, hhas, Bool.and_self,
      if_pos]
  have hstep2 : ∀ rest, resolveSegs t (p ++ [a]) (".." :: rest) = resolveSegs t p rest := by
    intro rest
    simp only [resolveSegs, hgetc, if_pos rfl, hparc]
    simp
  refine ⟨?_, ?_, ?_⟩
  · rw [get_node_by_path, if_neg hne1, if_neg (by simp [habs1]), hsplit1]
    show resolveSegs t p [a, "..", a] = some (p ++ [a])
    rw [hstep, hstep2, hstep]
    rfl
  · rw [get_node_by_path, if_neg hne2, if_neg (by simp [habs2]), hsplit2]
    show resolveSegs t p [a] = some (p ++ [a])
    rw [hstep]
    rfl
  · have hpt : t.parent = none := by
      have := wfAux_parent (p := []) hw
      simpa using this
    rw [get_node_by_path, if_neg (by decide),
      if_neg (by simp [show isAbsolute ".." = false from rfl]),
      show splitPath ".." = [".."] from rfl]
    show resolveSegs t [] [".."] = some []
    simp [resolveSegs, getNode, hpt]

/-- C8 witness: in the demo tree, `d/../d` and `d` resolve to the same
node `/d`, and `..` at the root stays at the root. -/
theorem C8_dotdot_resolution_witness :
    get_node_by_path { root := demoRoot, cwd := [], stats := zeroStats }
      ("d" ++ "/../" ++ "d") = some ([] ++ ["d"]) ∧
    get_node_by_path { root := demoRoot, cwd := [], stats := zeroStats } "d"
      = some ([] ++ ["d"]) ∧
    get_node_by_path { root := demoRoot, cwd := [], stats := zeroStats } ".."
      = some [] :=
  C8_dotdot_resolution demoRoot [] demoRoot "d" zeroStats zeroStats rfl rfl rfl rfl
    (by decide) (by decide) (by decide) (by decide)

end VFS
